import Mathlib

/-!
# Verification of the SIMD batch iterator of `src/array/primitive_array/simd.rs`

This file gives a shallow embedding of the batch-iteration primitive of a
nullable primitive array and proves the specified properties about it:
batch shape, validity-mask extraction, round trip through the collector,
the sum reduction, and bounds safety of the bitmap read.

Machine integers are modelled as `Nat` (the target is 64-bit, so
`usize` has `WORD_BITS = 64` bits and `WORD_BYTES = 8` bytes); lane data of
element type `T` is a `List T` of length `N` together with the type's
default value `d` (Rust's `T::default()`).
-/

namespace Simd

/-- Bit width of the native machine word (`std::mem::size_of::<usize>() * 8`
on the 64-bit target). -/
def WORD_BITS : Nat := 64

/-- Byte width of the native machine word (`std::mem::size_of::<usize>()`). -/
def WORD_BYTES : Nat := 8

/-- Modelled from the spec: the nullable primitive array (an external
collaborator of this core, defined outside the translated file): an ordered
sequence of elements `data` plus a parallel validity bitset `valid` where
`true` means "present"; the invariant `data.length = valid.length` is carried
as a hypothesis where needed.  Bits are packed least-significant-bit first
into a byte buffer whose length is the bit length rounded up to a whole byte,
and dead bits beyond the logical length read as zero (the array's storage
convention). -/
structure PrimitiveArray (T : Type) where
  data : List T
  valid : List Bool
deriving DecidableEq

/-- A batch of elements generated by `BatchIter` (`BatchItem<T, N>`):
`data` models the `Simd<T, N>` lane vector (a list of length `N`),
`valid` the `usize` validity mask, `len` the number of real elements. -/
structure BatchItem (T : Type) where
  data : List T
  valid : Nat
  len : Nat
deriving DecidableEq

/-- The state of `BatchIter<'a, T, N>`: the borrowed array and the cursor. -/
structure BatchIter (T : Type) where
  array : PrimitiveArray T
  idx : Nat
deriving DecidableEq

/-- The constructor `PrimitiveArray::batch_iter::<N>`: asserts `N <= size_of::<usize>() * 8`
(a panic, modelled as `none`) and otherwise returns the iterator state with
the cursor at 0. -/
def batch_iter {T : Type} (a : PrimitiveArray T) (N : Nat) :
    Option (BatchIter T) :=
  if N ≤ WORD_BITS then some ⟨a, 0⟩ else none

/-- The value of the run of `n` validity bits starting at bit index `start`,
least-significant-bit first; bits beyond the list read as zero.  `bitsToNat v
(8*b) 8` is byte `b` of the packed validity buffer. -/
def bitsToNat (v : List Bool) (start : Nat) : Nat → Nat
  | 0 => 0
  | n + 1 => (if v.getD start false then 1 else 0) + 2 * bitsToNat v (start + 1) n

/-- The value `usize::from_le_bytes` of `bytes` bytes of the packed validity buffer
starting at byte offset `byteOff`, the remaining high bytes being the zeroes
of the `[0u8; size_of::<usize>()]` initializer. -/
def readBytesLE (v : List Bool) (byteOff : Nat) : Nat → Nat
  | 0 => 0
  | b + 1 => bitsToNat v (8 * byteOff) 8 + 256 * readBytesLE v (byteOff + 1) b

/-- The body of `BatchIter::next` once `idx < array.len()` is known:
`len = min(array.len() - idx, N)`; the mask is `usize::from_le_bytes` of the
`(len + 7) >> 3` bytes at byte offset `idx >> 3` of the validity buffer; the
lane data is a direct copy of `data[idx..idx+N]` when `len == N`, and
otherwise a default-initialized vector whose first `len` lanes are copied
from `data[idx..idx+len]`. -/
def mkItem {T : Type} (a : PrimitiveArray T) (d : T) (N idx : Nat) :
    BatchItem T :=
  let len := min (a.data.length - idx) N
  let bytes := (len + 7) / 8
  let valid := readBytesLE a.valid (idx / 8) bytes
  let data :=
    if len = N then (a.data.drop idx).take N
    else (a.data.drop idx).take len ++ List.replicate (N - len) d
  ⟨data, valid, len⟩

/-- The step `BatchIter::next`: returns `None` once the cursor has passed the end,
otherwise the batch starting at the cursor. -/
def nextItem {T : Type} (a : PrimitiveArray T) (d : T) (N idx : Nat) :
    Option (BatchItem T) :=
  if idx < a.data.length then some (mkItem a d N idx) else none

/-- The full sequence of batches produced by the iterator from cursor
position `idx`, each step advancing the cursor by `N`.  (For `N = 0` the
Rust iterator would not terminate; lane count 0 is not a supported
configuration, and the model returns `[]` there.) -/
def batchesFrom {T : Type} (a : PrimitiveArray T) (d : T) (N : Nat)
    (idx : Nat) : List (BatchItem T) :=
  if _h : idx < a.data.length ∧ 0 < N then
    mkItem a d N idx :: batchesFrom a d N (idx + N)
  else []
termination_by a.data.length - idx
decreasing_by simp_wf; omega

/-- The full sequence of batches produced by a fresh iterator. -/
def batches {T : Type} (a : PrimitiveArray T) (d : T) (N : Nat) :
    List (BatchItem T) :=
  batchesFrom a d N 0

/-- The first `n` least-significant bits of the word `x`
(`&BitSlice::<usize, Lsb0>::from_element(&x)[..n]`). -/
def natBits (x : Nat) (n : Nat) : List Bool :=
  (List.range n).map (fun i => x.testBit i)

/-- The collector `FromIterator<BatchItem<T, N>> for PrimitiveArray<T>`: the builder loop
appends, for each item, the first `len` validity bits of the mask and the
first `len` lanes of the data vector.  (The capacity hint
`iter.size_hint().0 * N` only preallocates and does not affect the result.) -/
def from_iter {T : Type} (items : List (BatchItem T)) : PrimitiveArray T :=
  items.foldl
    (fun b e =>
      { data := b.data ++ e.data.take e.len
        valid := b.valid ++ natBits e.valid e.len })
    ⟨[], []⟩

/-- The step `BatchIter::next` with every panicking or unsafe access made explicit:
slicing `valid[..bytes]` of the word-sized byte buffer, the raw
`from_raw_parts` read of `bytes` bytes at byte offset `idx >> 3` of the
validity buffer (whose allocated length is the bit length rounded up to a
whole byte), the slice `data[idx..idx+len]`, and the
`try_from(..).unwrap()` conversion to a fixed-size array. -/
def nextChecked {T : Type} (a : PrimitiveArray T) (d : T) (N idx : Nat) :
    Except String (Option (BatchItem T)) :=
  if a.data.length ≤ idx then .ok none
  else
    let len := min (a.data.length - idx) N
    let bytes := (len + 7) / 8
    if WORD_BYTES < bytes then .error "range end out of range"
    else if (a.valid.length + 7) / 8 < idx / 8 + bytes then
      .error "bitmap read out of bounds"
    else if a.data.length < idx + len then .error "slice index out of range"
    else if len = N ∧ ((a.data.drop idx).take len).length ≠ N then
      .error "could not convert slice to array"
    else .ok (some (mkItem a d N idx))

/-- Two's-complement wrap of a value to the `i32` range. -/
def wrap32 (x : Int) : Int := (x + 2 ^ 31) % 2 ^ 32 - 2 ^ 31

/-- Wrapping `i32` addition (the wrap is the machine type's release-mode semantics). -/
def addWrap32 (x y : Int) : Int := wrap32 (x + y)

/-- The reduction `Simd::<i32, N>::reduce_sum`: horizontal sum of all `N` lanes of the
data vector, nulls included. -/
def reduce_sum (l : List Int) : Int := l.foldl addWrap32 0

/-- The adapter `Sum<BatchItem<i32, N>> for i32`:
`iter.map(|batch| batch.data.reduce_sum()).sum()` — the horizontal sum of
each item's full lane vector, combined in iteration order. -/
def sumBatches (items : List (BatchItem Int)) : Int :=
  (items.map (fun batch => reduce_sum batch.data)).foldl addWrap32 0

/-! ## Bit-extraction lemmas -/

theorem bitsToNat_bit (v : List Bool) (s n : Nat) :
    bitsToNat v s (n + 1) = Nat.bit (v.getD s false) (bitsToNat v (s + 1) n) := by
  show (if v.getD s false then 1 else 0) + 2 * bitsToNat v (s + 1) n = _
  cases v.getD s false
  · simp [Nat.bit]
  · simp [Nat.bit]
    omega

/-- Bit `i` of the packed run of `n` bits starting at `s` is the source bit
`s + i` when `i < n`, and zero beyond the run. -/
theorem bitsToNat_testBit (v : List Bool) (n : Nat) :
    ∀ s i, (bitsToNat v s n).testBit i
      = if i < n then v.getD (s + i) false else false := by
  induction n with
  | zero => intro s i; simp [bitsToNat, Nat.zero_testBit]
  | succ m ih =>
    intro s i
    rw [bitsToNat_bit]
    cases i with
    | zero => simp [Nat.testBit_bit_zero]
    | succ j =>
      rw [Nat.testBit_bit_succ, ih (s + 1) j]
      have hs : s + 1 + j = s + (j + 1) := by omega
      rw [hs]
      by_cases hj : j < m
      · rw [if_pos hj, if_pos (by omega)]
      · rw [if_neg hj, if_neg (by omega)]

theorem bitsToNat_split (v : List Bool) (m : Nat) :
    ∀ s n, bitsToNat v s (m + n)
      = bitsToNat v s m + 2 ^ m * bitsToNat v (s + m) n := by
  induction m with
  | zero => intro s n; simp [bitsToNat]
  | succ k ih =>
    intro s n
    rw [show k + 1 + n = (k + n) + 1 from by omega]
    simp only [bitsToNat]
    rw [ih (s + 1) n, show s + 1 + k = s + (k + 1) from by omega]
    ring

/-- The little-endian byte read is the packed run of `8 * b` bits starting at
bit `8 * off`. -/
theorem readBytesLE_eq (v : List Bool) :
    ∀ off b, readBytesLE v off b = bitsToNat v (8 * off) (8 * b) := by
  intro off b
  induction b generalizing off with
  | zero => simp [readBytesLE, bitsToNat]
  | succ k ih =>
    simp only [readBytesLE]
    rw [ih (off + 1), show 8 * (k + 1) = 8 + 8 * k from by ring,
      bitsToNat_split v 8 (8 * off) (8 * k),
      show 8 * off + 8 = 8 * (off + 1) from by ring]
    norm_num

theorem readBytesLE_testBit (v : List Bool) (off b i : Nat) :
    (readBytesLE v off b).testBit i
      = if i < 8 * b then v.getD (8 * off + i) false else false := by
  rw [readBytesLE_eq, bitsToNat_testBit]

/-! ## Projections of `mkItem` -/

theorem mkItem_len {T : Type} (a : PrimitiveArray T) (d : T) (N idx : Nat) :
    (mkItem a d N idx).len = min (a.data.length - idx) N := rfl

theorem mkItem_valid {T : Type} (a : PrimitiveArray T) (d : T) (N idx : Nat) :
    (mkItem a d N idx).valid
      = readBytesLE a.valid (idx / 8) ((min (a.data.length - idx) N + 7) / 8) := rfl

theorem mkItem_data {T : Type} (a : PrimitiveArray T) (d : T) (N idx : Nat) :
    (mkItem a d N idx).data
      = if min (a.data.length - idx) N = N then (a.data.drop idx).take N
        else (a.data.drop idx).take (min (a.data.length - idx) N)
          ++ List.replicate (N - min (a.data.length - idx) N) d := rfl

/-- When the batch starts at a byte-aligned index, bit `i` of its mask is the
array's validity bit `idx + i`, as long as `i` is inside the bytes read. -/
theorem mkItem_testBit {T : Type} (a : PrimitiveArray T) (d : T)
    (N idx i : Nat) (h8 : idx % 8 = 0) :
    (mkItem a d N idx).valid.testBit i
      = if i < 8 * ((min (a.data.length - idx) N + 7) / 8)
        then a.valid.getD (idx + i) false else false := by
  rw [mkItem_valid, readBytesLE_testBit, show 8 * (idx / 8) = idx from by omega]

/-! ## Ceiling-division arithmetic -/

theorem ceilDiv_pos_step (x N : Nat) (hN : 0 < N) (hx : 0 < x) :
    (x + N - 1) / N = (x - N + N - 1) / N + 1 := by
  rcases le_or_lt x N with h | h
  · rw [show x + N - 1 = (x - 1) + N from by omega, Nat.add_div_right _ hN,
      Nat.div_eq_of_lt (by omega), show x - N = 0 from by omega]
    rw [Nat.div_eq_of_lt (by omega)]
  · rw [show x + N - 1 = (x - N + N - 1) + N from by omega, Nat.add_div_right _ hN]

theorem lt_ceilDiv_iff (L N k : Nat) (hN : 0 < N) :
    k < (L + N - 1) / N ↔ k * N < L := by
  rw [Nat.lt_iff_add_one_le, Nat.le_div_iff_mul_le hN]
  have h1 : (k + 1) * N = k * N + N := by ring
  omega

theorem ceilDiv_le_imp (L N k : Nat) (hN : 0 < N)
    (h : (L + N - 1) / N ≤ k + 1) : L ≤ k * N + N := by
  have h0 : (L + N - 1) / N < k + 2 := by omega
  have h2 := (Nat.div_lt_iff_lt_mul hN).mp h0
  have h3 : (k + 2) * N = k * N + 2 * N := by ring
  omega

/-! ## Closed form of the batch sequence -/

/-- The batch sequence from cursor `idx` consists of one batch per stride:
batch `k` starts at `idx + k * N`, and there are `⌈(L - idx) / N⌉` of them. -/
theorem batchesFrom_eq_range {T : Type} (a : PrimitiveArray T) (d : T)
    (N : Nat) (hN : 0 < N) :
    ∀ idx, batchesFrom a d N idx
      = (List.range ((a.data.length - idx + N - 1) / N)).map
          (fun k => mkItem a d N (idx + k * N)) := by
  intro idx
  by_cases h : idx < a.data.length
  · rw [batchesFrom, dif_pos ⟨h, hN⟩, batchesFrom_eq_range a d N hN (idx + N),
      ceilDiv_pos_step (a.data.length - idx) N hN (by omega),
      show a.data.length - idx - N = a.data.length - (idx + N) from by omega,
      List.range_succ_eq_map, List.map_cons, List.map_map]
    congr 1
    · simp
    · refine List.map_congr_left fun k _ => ?_
      simp only [Function.comp]
      congr 1
      simp only [Nat.succ_eq_add_one]
      ring
  · rw [batchesFrom, dif_neg (fun hc => h hc.1),
      show a.data.length - idx = 0 from by omega, Nat.zero_add,
      Nat.div_eq_of_lt (by omega)]
    rfl
termination_by idx => a.data.length - idx
decreasing_by simp_wf; omega

theorem batches_eq_range {T : Type} (a : PrimitiveArray T) (d : T)
    (N : Nat) (hN : 0 < N) :
    batches a d N
      = (List.range ((a.data.length + N - 1) / N)).map
          (fun k => mkItem a d N (k * N)) := by
  rw [batches, batchesFrom_eq_range a d N hN 0]
  simp

theorem batches_length {T : Type} (a : PrimitiveArray T) (d : T)
    (N : Nat) (hN : 0 < N) :
    (batches a d N).length = (a.data.length + N - 1) / N := by
  rw [batches_eq_range a d N hN, List.length_map, List.length_range]

theorem batches_getD {T : Type} (a : PrimitiveArray T) (d : T)
    (N : Nat) (hN : 0 < N) (k : Nat) (hk : k * N < a.data.length)
    (dflt : BatchItem T) :
    (batches a d N).getD k dflt = mkItem a d N (k * N) := by
  rw [batches_eq_range a d N hN, List.getD_eq_getElem?_getD, List.getElem?_map,
    List.getElem?_range ((lt_ceilDiv_iff _ N k hN).mpr hk)]
  rfl

/-! ## List helpers -/

theorem take_drop_getD {α : Type} (l : List α) (s n i : Nat) (d : α)
    (hi : i < n) : ((l.drop s).take n).getD i d = l.getD (s + i) d := by
  rw [List.getD_eq_getElem?_getD, List.getD_eq_getElem?_getD,
    List.getElem?_take, if_pos hi, List.getElem?_drop]

theorem getD_replicate_self {α : Type} (m j : Nat) (d : α) :
    (List.replicate m d).getD j d = d := by
  rw [List.getD_eq_getElem?_getD, List.getElem?_replicate]
  split <;> rfl

/-! ## Lane data of a batch -/

theorem mkItem_data_length {T : Type} (a : PrimitiveArray T) (d : T)
    (N idx : Nat) :
    (mkItem a d N idx).data.length = N := by
  rw [mkItem_data]
  split
  · next h =>
    rw [List.length_take, List.length_drop]
    omega
  · next h =>
    rw [List.length_append, List.length_take, List.length_drop,
      List.length_replicate]
    omega

theorem mkItem_data_getD_lt {T : Type} (a : PrimitiveArray T) (d : T)
    (N idx i : Nat) (hi : i < (mkItem a d N idx).len) :
    (mkItem a d N idx).data.getD i d = a.data.getD (idx + i) d := by
  rw [mkItem_len] at hi
  rw [mkItem_data]
  split
  · next h => exact take_drop_getD _ _ _ _ _ (by omega)
  · next h =>
    rw [List.getD_append _ _ _ i (by rw [List.length_take, List.length_drop]; omega)]
    exact take_drop_getD _ _ _ _ _ hi

theorem mkItem_data_getD_ge {T : Type} (a : PrimitiveArray T) (d : T)
    (N idx i : Nat) (hi : (mkItem a d N idx).len ≤ i) :
    (mkItem a d N idx).data.getD i d = d := by
  rw [mkItem_len] at hi
  rw [mkItem_data]
  split
  · next h =>
    rw [List.getD_eq_getElem?_getD, List.getElem?_take]
    rw [if_neg (by omega)]
    rfl
  · next h =>
    rw [List.getD_append_right _ _ _ i
        (by rw [List.length_take, List.length_drop]; omega)]
    exact getD_replicate_self _ _ _

/-- The first `len` lanes of a batch are the `len` source elements at
`[idx, idx + len)`. -/
theorem mkItem_data_take {T : Type} (a : PrimitiveArray T) (d : T)
    (N idx : Nat) :
    (mkItem a d N idx).data.take (mkItem a d N idx).len
      = (a.data.drop idx).take (mkItem a d N idx).len := by
  rw [mkItem_data, mkItem_len]
  split
  · next h => rw [List.take_take, h, min_self]
  · next h =>
    have hXlen : ((a.data.drop idx).take (min (a.data.length - idx) N)).length
        = min (a.data.length - idx) N := by
      rw [List.length_take, List.length_drop]
      omega
    rw [List.take_append_eq_append_take, hXlen, Nat.sub_self, List.take_zero,
      List.append_nil, List.take_take, min_self]

/-! ## Validity bits of a batch, as a bit list -/

theorem natBits_length (x n : Nat) : (natBits x n).length = n := by
  rw [natBits, List.length_map, List.length_range]

theorem natBits_getElem? (x n i : Nat) :
    (natBits x n)[i]? = if i < n then some (x.testBit i) else none := by
  rw [natBits, List.getElem?_map]
  rcases lt_or_ge i n with h | h
  · rw [List.getElem?_range h, if_pos h]
    rfl
  · rw [List.getElem?_eq_none (by rw [List.length_range]; omega), if_neg (by omega)]
    rfl

/-- The first `len` bits of the mask of a byte-aligned batch are the `len`
source validity bits at `[idx, idx + len)`. -/
theorem mkItem_natBits {T : Type} (a : PrimitiveArray T) (d : T)
    (N idx : Nat) (h8 : idx % 8 = 0) (hidx : idx < a.data.length)
    (hinv : a.data.length = a.valid.length) :
    natBits (mkItem a d N idx).valid (mkItem a d N idx).len
      = (a.valid.drop idx).take (mkItem a d N idx).len := by
  apply List.ext_getElem?
  intro i
  rw [natBits_getElem?, List.getElem?_take, List.getElem?_drop, mkItem_len]
  rcases lt_or_ge i (min (a.data.length - idx) N) with h | h
  · rw [if_pos h, if_pos h, mkItem_testBit a d N idx i h8,
      if_pos (by omega), List.getD_eq_getElem?_getD,
      List.getElem?_eq_getElem (l := a.valid) (n := idx + i) (by omega)]
    rfl
  · rw [if_neg (by omega), if_neg (by omega)]

/-! ## The collector -/

/-- Unrolling the builder loop of `from_iter`: the result is the
concatenation of the per-item lane prefixes and mask-bit prefixes. -/
theorem from_iter_loop {T : Type} (items : List (BatchItem T)) :
    ∀ acc : PrimitiveArray T,
      items.foldl
        (fun b e =>
          { data := b.data ++ e.data.take e.len
            valid := b.valid ++ natBits e.valid e.len }) acc
      = ⟨acc.data ++ (items.map (fun e => e.data.take e.len)).flatten,
         acc.valid ++ (items.map (fun e => natBits e.valid e.len)).flatten⟩ := by
  induction items with
  | nil => intro acc; simp
  | cons x xs ih =>
    intro acc
    rw [List.foldl_cons, ih, List.map_cons, List.map_cons,
      List.flatten_cons, List.flatten_cons]
    simp [List.append_assoc]

theorem from_iter_eq_flatten {T : Type} (items : List (BatchItem T)) :
    from_iter items
      = ⟨(items.map (fun e => e.data.take e.len)).flatten,
         (items.map (fun e => natBits e.valid e.len)).flatten⟩ := by
  rw [from_iter, from_iter_loop items ⟨[], []⟩]
  simp

/-- Collecting the batch stream from any byte-aligned cursor position
reproduces the remaining elements and validity bits. -/
theorem batches_flatten {T : Type} (a : PrimitiveArray T) (d : T)
    (hinv : a.data.length = a.valid.length) (N : Nat) (hN : 0 < N)
    (h8 : N % 8 = 0) :
    ∀ idx, idx % 8 = 0 →
      ((batchesFrom a d N idx).map (fun e => e.data.take e.len)).flatten
          = a.data.drop idx
      ∧ ((batchesFrom a d N idx).map (fun e => natBits e.valid e.len)).flatten
          = a.valid.drop idx := by
  intro idx h8i
  by_cases h : idx < a.data.length
  · have hrec := batches_flatten a d hinv N hN h8 (idx + N) (by omega)
    rw [batchesFrom, dif_pos ⟨h, hN⟩, List.map_cons, List.map_cons,
      List.flatten_cons, List.flatten_cons, hrec.1, hrec.2, mkItem_data_take,
      mkItem_natBits a d N idx h8i h hinv, mkItem_len]
    constructor
    · rcases le_or_lt N (a.data.length - idx) with hc | hc
      · rw [show min (a.data.length - idx) N = N from by omega,
          show a.data.drop (idx + N) = (a.data.drop idx).drop N from by
            rw [List.drop_drop],
          List.take_append_drop]
      · rw [List.take_of_length_le (by rw [List.length_drop]; omega),
          List.drop_eq_nil_of_le (show a.data.length ≤ idx + N from by omega),
          List.append_nil]
    · rcases le_or_lt N (a.data.length - idx) with hc | hc
      · rw [show min (a.data.length - idx) N = N from by omega,
          show a.valid.drop (idx + N) = (a.valid.drop idx).drop N from by
            rw [List.drop_drop],
          List.take_append_drop]
      · rw [List.take_of_length_le (by rw [List.length_drop]; omega),
          List.drop_eq_nil_of_le (show a.valid.length ≤ idx + N from by omega),
          List.append_nil]
  · rw [batchesFrom, dif_neg (fun hc => h hc.1)]
    constructor
    · rw [List.map_nil, List.drop_eq_nil_of_le (by omega)]
      rfl
    · rw [List.map_nil, List.drop_eq_nil_of_le (by omega)]
      rfl
termination_by idx => a.data.length - idx
decreasing_by simp_wf; omega

/-! ## Claims -/

/-- C1: Round trip — for every nullable primitive array (equal data and
validity lengths) and every supported batch width `N` (a positive multiple
of 8 that is at most the native word's bit count), collecting the full
sequence produced by the batch iterator via the collector yields an array
equal to the original: same length, same element data, same validity bits. -/
theorem C1_roundtrip {T : Type} (a : PrimitiveArray T) (d : T)
    (hinv : a.data.length = a.valid.length) (N : Nat)
    (hN : 0 < N) (h8 : N % 8 = 0) ( _hword : N ≤ WORD_BITS) :
    from_iter (batches a d N) = a := by
  rw [from_iter_eq_flatten]
  have h := batches_flatten a d hinv N hN h8 0 (by omega)
  rw [batches, h.1, h.2, List.drop_zero, List.drop_zero]

def arrC1 : PrimitiveArray Int :=
  ⟨[5, 6, 7, 8, 9], [true, false, true, true, false]⟩

theorem C1_roundtrip_witness : from_iter (batches arrC1 0 8) = arrC1 :=
  C1_roundtrip arrC1 0 (by decide) 8 (by decide) (by decide) (by decide)

/-- C2: Batch count and shape — for every array of length `L` and every
positive batch width `N ≤ WORD_BITS`, the iterator yields exactly
`⌈L / N⌉` items; every item but the last has `len = N`, the last has
`len = L - N * (⌈L / N⌉ - 1)`; every call of `next` past the end returns
`none`; and a zero-length array yields zero batches. -/
theorem C2_batch_count_shape {T : Type} (a : PrimitiveArray T) (d : T)
    (N : Nat) (hN : 0 < N) ( _hword : N ≤ WORD_BITS) :
    (batches a d N).length = (a.data.length + N - 1) / N
    ∧ (∀ k, k < (batches a d N).length →
        ((batches a d N).getD k ⟨[], 0, 0⟩).len
          = if k + 1 = (a.data.length + N - 1) / N
            then a.data.length - N * ((a.data.length + N - 1) / N - 1)
            else N)
    ∧ (∀ idx, a.data.length ≤ idx → nextItem a d N idx = none)
    ∧ (a.data.length = 0 → batches a d N = []) := by
  refine ⟨batches_length a d N hN, ?_, ?_, ?_⟩
  · intro k hk
    rw [batches_length a d N hN] at hk
    have hkN : k * N < a.data.length := (lt_ceilDiv_iff _ _ _ hN).mp hk
    rw [batches_getD a d N hN k hkN, mkItem_len]
    by_cases hlast : k + 1 = (a.data.length + N - 1) / N
    · rw [if_pos hlast]
      have hle : a.data.length ≤ k * N + N :=
        ceilDiv_le_imp _ _ _ hN (le_of_eq hlast.symm)
      have hmul : N * ((a.data.length + N - 1) / N - 1) = N * k := by
        rw [← hlast]
        congr 1
      have hcomm : N * k = k * N := by ring
      rw [hmul, hcomm]
      omega
    · rw [if_neg hlast]
      have hk1 : k + 1 < (a.data.length + N - 1) / N := by omega
      have hk1N := (lt_ceilDiv_iff _ _ _ hN).mp hk1
      have hexp : (k + 1) * N = k * N + N := by ring
      omega
  · intro idx hidx
    rw [nextItem, if_neg (by omega)]
  · intro h0
    rw [batches_eq_range a d N hN, h0, Nat.zero_add,
      Nat.div_eq_of_lt (by omega)]
    rfl

def arrC2 : PrimitiveArray Nat :=
  ⟨List.range 12, (List.range 12).map (fun i => i % 2 == 0)⟩

theorem C2_batch_count_shape_witness :
    (batches arrC2 0 8).length = (arrC2.data.length + 8 - 1) / 8
    ∧ (∀ k, k < (batches arrC2 0 8).length →
        ((batches arrC2 0 8).getD k ⟨[], 0, 0⟩).len
          = if k + 1 = (arrC2.data.length + 8 - 1) / 8
            then arrC2.data.length - 8 * ((arrC2.data.length + 8 - 1) / 8 - 1)
            else 8)
    ∧ (∀ idx, arrC2.data.length ≤ idx → nextItem arrC2 0 8 idx = none)
    ∧ (arrC2.data.length = 0 → batches arrC2 0 8 = []) :=
  C2_batch_count_shape arrC2 0 8 (by decide) (by decide)

/-- C3: Validity mask correctness — for every array and every supported
batch width `N` (a positive multiple of 8, at most `WORD_BITS`), the `k`-th
batch starts at `idx = k * N` and, for every `i < len`, bit `i` of its
`valid` mask equals the array's validity bit at position `idx + i`. -/
theorem C3_valid_mask {T : Type} (a : PrimitiveArray T) (d : T)
    ( _hinv : a.data.length = a.valid.length) (N : Nat)
    (hN : 0 < N) (h8 : N % 8 = 0) (hword : N ≤ WORD_BITS)
    (k : Nat) (hk : k < (batches a d N).length) :
    ∀ i < ((batches a d N).getD k ⟨[], 0, 0⟩).len,
      ((batches a d N).getD k ⟨[], 0, 0⟩).valid.testBit i
        = a.valid.getD (k * N + i) false := by
  rw [batches_length a d N hN] at hk
  have hkN : k * N < a.data.length := (lt_ceilDiv_iff _ _ _ hN).mp hk
  rw [batches_getD a d N hN k hkN]
  intro i hi
  rw [mkItem_len] at hi
  have hka : k * N % 8 = 0 := by
    obtain ⟨t, ht⟩ := Nat.dvd_of_mod_eq_zero h8
    subst ht
    rw [show k * (8 * t) = 8 * (k * t) from by ring, Nat.mul_mod_right]
  rw [mkItem_testBit a d N (k * N) i hka, if_pos (by omega)]

def arrC3 : PrimitiveArray Nat :=
  ⟨List.range 12, (List.range 12).map (fun i => i % 2 == 0)⟩

theorem C3_valid_mask_witness :
    ((batches arrC3 0 8).getD 1 ⟨[], 0, 0⟩).valid.testBit 2
      = arrC3.valid.getD (1 * 8 + 2) false :=
  C3_valid_mask arrC3 0 (by decide) 8 (by decide) (by decide) (by decide) 1
    (by rw [batches_length arrC3 0 8 (by decide)]; decide) 2
    (by rw [batches_getD arrC3 0 8 (by decide) 1 (by decide) ⟨[], 0, 0⟩]; decide)

/-- C4: Mask high bits are zero — for every batch item produced by the
iterator at a supported width `N` (positive multiple of 8, at most
`WORD_BITS`), every bit of the `valid` mask at a position `≥ len` is zero,
including the bits in positions `len..8*⌈len/8⌉` of a final partial batch
(the bytes read there cover only validity positions at or past the array's
end, and the buffer's dead bits are zero). -/
theorem C4_mask_high_bits {T : Type} (a : PrimitiveArray T) (d : T)
    (hinv : a.data.length = a.valid.length) (N : Nat)
    (hN : 0 < N) (h8 : N % 8 = 0) (hword : N ≤ WORD_BITS) :
    ∀ item ∈ batches a d N, ∀ i, item.len ≤ i →
      item.valid.testBit i = false := by
  intro item hmem i hi
  rw [batches_eq_range a d N hN] at hmem
  obtain ⟨k, hkmem, rfl⟩ := List.mem_map.mp hmem
  have hk : k < (a.data.length + N - 1) / N := List.mem_range.mp hkmem
  have hkN : k * N < a.data.length := (lt_ceilDiv_iff _ _ _ hN).mp hk
  rw [mkItem_len] at hi
  have hka : k * N % 8 = 0 := by
    obtain ⟨t, ht⟩ := Nat.dvd_of_mod_eq_zero h8
    subst ht
    rw [show k * (8 * t) = 8 * (k * t) from by ring, Nat.mul_mod_right]
  rw [mkItem_testBit a d N (k * N) i hka]
  by_cases hcase : i < 8 * ((min (a.data.length - k * N) N + 7) / 8)
  · rw [if_pos hcase]
    exact List.getD_eq_default _ _ (by omega)
  · rw [if_neg hcase]

def arrC4 : PrimitiveArray Nat :=
  ⟨List.range 12, List.replicate 12 true⟩

theorem C4_mask_high_bits_witness :
    (mkItem arrC4 0 8 8).valid.testBit 5 = false :=
  C4_mask_high_bits arrC4 0 (by decide) 8 (by decide) (by decide) (by decide)
    (mkItem arrC4 0 8 8)
    (by rw [batches_eq_range arrC4 0 8 (by decide)]; decide)
    5 (by decide)

/-- C5: Fail-fast construction precondition — constructing the batch
iterator fails (the assertion panics, modelled as `none`) exactly when `N`
exceeds the native word's bit count; for every `N ≤ WORD_BITS` construction
succeeds with the cursor at 0; and iteration itself never fails: with every
panicking or unsafe access modelled explicitly, each step returns `ok`. -/
theorem C5_construction_failfast {T : Type} (a : PrimitiveArray T) (d : T)
    (hinv : a.data.length = a.valid.length) (N : Nat) :
    (batch_iter a N = none ↔ WORD_BITS < N)
    ∧ (N ≤ WORD_BITS → batch_iter a N = some ⟨a, 0⟩)
    ∧ (N ≤ WORD_BITS → ∀ idx,
        nextChecked a d N idx = .ok (nextItem a d N idx)) := by
  refine ⟨⟨fun h => ?_, fun h => ?_⟩, fun h => ?_, fun h idx => ?_⟩
  · by_contra hc
    rw [batch_iter, if_pos (by omega)] at h
    exact Option.noConfusion h
  · rw [batch_iter, if_neg (by omega)]
  · rw [batch_iter, if_pos h]
  · have h64 : N ≤ 64 := h
    simp only [nextChecked, nextItem]
    by_cases hidx : idx < a.data.length
    · have hW : WORD_BYTES = 8 := rfl
      rw [if_neg (by omega), if_pos hidx, if_neg (by omega), if_neg (by omega),
        if_neg (by omega),
        if_neg (by
          rintro ⟨h1, h2⟩
          exact h2 (by rw [List.length_take, List.length_drop]; omega))]
    · rw [if_pos (by omega), if_neg hidx]

def arrC5 : PrimitiveArray Int := ⟨[1, 2, 3], [true, true, false]⟩

theorem C5_construction_failfast_witness :
    (batch_iter arrC5 8 = none ↔ WORD_BITS < 8)
    ∧ (8 ≤ WORD_BITS → batch_iter arrC5 8 = some ⟨arrC5, 0⟩)
    ∧ (8 ≤ WORD_BITS → ∀ idx,
        nextChecked arrC5 0 8 idx = .ok (nextItem arrC5 0 8 idx)) :=
  C5_construction_failfast arrC5 0 (by decide) 8

/-- C6: Lane-data extraction — for every array and every supported batch
width `N`, the `k`-th batch item (starting at `idx = k * N`) has exactly
`N` lanes; lane `i` equals the array element at `idx + i` for every
`i < len`; and every lane at a position `≥ len` holds the element type's
default value. -/
theorem C6_lane_data {T : Type} (a : PrimitiveArray T) (d : T)
    (N : Nat) (hN : 0 < N) ( _h8 : N % 8 = 0) ( _hword : N ≤ WORD_BITS)
    (k : Nat) (hk : k < (batches a d N).length) :
    ((batches a d N).getD k ⟨[], 0, 0⟩).data.length = N
    ∧ (∀ i < ((batches a d N).getD k ⟨[], 0, 0⟩).len,
        ((batches a d N).getD k ⟨[], 0, 0⟩).data.getD i d
          = a.data.getD (k * N + i) d)
    ∧ (∀ i, ((batches a d N).getD k ⟨[], 0, 0⟩).len ≤ i →
        ((batches a d N).getD k ⟨[], 0, 0⟩).data.getD i d = d) := by
  rw [batches_length a d N hN] at hk
  have hkN : k * N < a.data.length := (lt_ceilDiv_iff _ _ _ hN).mp hk
  rw [batches_getD a d N hN k hkN]
  exact ⟨mkItem_data_length a d N (k * N),
    fun i hi => mkItem_data_getD_lt a d N (k * N) i hi,
    fun i hi => mkItem_data_getD_ge a d N (k * N) i hi⟩

def arrC6 : PrimitiveArray Int :=
  ⟨[10, 20, 30, 40, 50, 60, 70, 80, 90, 100], List.replicate 10 true⟩

theorem C6_lane_data_witness :
    ((batches arrC6 0 8).getD 1 ⟨[], 0, 0⟩).data.length = 8
    ∧ (∀ i < ((batches arrC6 0 8).getD 1 ⟨[], 0, 0⟩).len,
        ((batches arrC6 0 8).getD 1 ⟨[], 0, 0⟩).data.getD i 0
          = arrC6.data.getD (1 * 8 + i) 0)
    ∧ (∀ i, ((batches arrC6 0 8).getD 1 ⟨[], 0, 0⟩).len ≤ i →
        ((batches arrC6 0 8).getD 1 ⟨[], 0, 0⟩).data.getD i 0 = 0) :=
  C6_lane_data arrC6 0 8 (by decide) (by decide) (by decide) 1
    (by rw [batches_length arrC6 0 8 (by decide)]; decide)

/-- C7: Sum reduction semantics — the `Sum` implementation combines, in
iteration order, the horizontal sum of each item's full `N`-lane data
vector and never consults the `valid` mask: two item sequences with equal
lane data (whatever their masks or lengths) sum to the same scalar; and for
the array `0..32` (all valid) at width `N = 32`, the sum over its single
batch is `496`. -/
theorem C7_sum_reduction :
    (∀ xs ys : List (BatchItem Int),
        xs.map (fun e => e.data) = ys.map (fun e => e.data) →
        sumBatches xs = sumBatches ys)
    ∧ sumBatches
        (batches ⟨(List.range 32).map Int.ofNat, List.replicate 32 true⟩ 0 32)
      = 496 := by
  constructor
  · intro xs ys hxy
    have hmap : ∀ zs : List (BatchItem Int),
        zs.map (fun batch => reduce_sum batch.data)
          = (zs.map (fun e => e.data)).map reduce_sum := by
      intro zs
      rw [List.map_map]
      rfl
    show (xs.map (fun batch => reduce_sum batch.data)).foldl addWrap32 0
      = (ys.map (fun batch => reduce_sum batch.data)).foldl addWrap32 0
    rw [hmap xs, hmap ys, hxy]
  · rw [batches_eq_range _ _ _ (by omega)]
    set_option maxRecDepth 10000 in decide

/-- C8: Bounds safety of the bitmap read — for every array whose validity
buffer is allocated with its bit length rounded up to a whole byte
(`⌈valid.length / 8⌉` bytes) and every batch width `N ≤ WORD_BITS`, the
`k`-th iteration step reads only the bytes at offsets
`idx/8 .. idx/8 + ⌈len/8⌉` of the buffer, a range that never extends past
the buffer's allocated length, even for the final partial batch. -/
theorem C8_bitmap_bounds {T : Type} (a : PrimitiveArray T) (d : T)
    (hinv : a.data.length = a.valid.length) (N : Nat)
    (hN : 0 < N) ( _hword : N ≤ WORD_BITS)
    (k : Nat) (hk : k < (batches a d N).length) :
    k * N / 8 + (((batches a d N).getD k ⟨[], 0, 0⟩).len + 7) / 8
      ≤ (a.valid.length + 7) / 8 := by
  rw [batches_length a d N hN] at hk
  have hkN : k * N < a.data.length := (lt_ceilDiv_iff _ _ _ hN).mp hk
  rw [batches_getD a d N hN k hkN, mkItem_len]
  omega

def arrC8 : PrimitiveArray Nat :=
  ⟨List.range 12, (List.range 12).map (fun i => i % 3 == 0)⟩

theorem C8_bitmap_bounds_witness :
    1 * 8 / 8 + (((batches arrC8 0 8).getD 1 ⟨[], 0, 0⟩).len + 7) / 8
      ≤ (arrC8.valid.length + 7) / 8 :=
  C8_bitmap_bounds arrC8 0 (by decide) 8 (by decide) (by decide) 1
    (by rw [batches_length arrC8 0 8 (by decide)]; decide)

/-- C9: Collector noninterference on unused lanes and bits — for any two
sequences of batch items that agree itemwise on `len`, on the data lanes
below `len`, and on the mask bits below `len`, the collector produces equal
arrays; lanes and mask bits at positions `≥ len` never influence the
rebuilt array. -/
theorem C9_collector_noninterference {T : Type} (xs ys : List (BatchItem T))
    (h : List.Forall₂
      (fun x y => x.len = y.len
        ∧ x.data.take x.len = y.data.take y.len
        ∧ ∀ i < x.len, x.valid.testBit i = y.valid.testBit i) xs ys) :
    from_iter xs = from_iter ys := by
  rw [from_iter_eq_flatten, from_iter_eq_flatten]
  have hd : xs.map (fun e => e.data.take e.len)
      = ys.map (fun e => e.data.take e.len) := by
    induction h with
    | nil => rfl
    | cons hxy _ ih =>
      rw [List.map_cons, List.map_cons, ih, hxy.2.1]
  have hv : xs.map (fun e => natBits e.valid e.len)
      = ys.map (fun e => natBits e.valid e.len) := by
    clear hd
    induction h with
    | nil => rfl
    | cons hxy _ ih =>
      rw [List.map_cons, List.map_cons, ih]
      congr 1
      rw [natBits, natBits, ← hxy.1]
      exact List.map_congr_left fun i hi => hxy.2.2 i (List.mem_range.mp hi)
  rw [hd, hv]

theorem C9_collector_noninterference_witness :
    from_iter [(⟨[1, 2, 7], 5, 2⟩ : BatchItem Int)]
      = from_iter [(⟨[1, 2, 9], 1, 2⟩ : BatchItem Int)] :=
  C9_collector_noninterference _ _
    (List.Forall₂.cons ⟨rfl, rfl, by decide⟩ List.Forall₂.nil)

/-- C10: No byte-alignment enforcement at construction — for every batch
width `N ≤ WORD_BITS`, `batch_iter` succeeds without panicking even when
`N` is not a multiple of 8; only the word-size bound is asserted, so the
unsupported non-byte-aligned configuration is not rejected at the public
interface. -/
theorem C10_no_alignment_check {T : Type} (a : PrimitiveArray T) (N : Nat)
    (hword : N ≤ WORD_BITS) ( _hmod : N % 8 ≠ 0) :
    batch_iter a N = some ⟨a, 0⟩ := by
  rw [batch_iter, if_pos hword]

def arrC10 : PrimitiveArray Int := ⟨[4, 5], [true, false]⟩

theorem C10_no_alignment_check_witness :
    batch_iter arrC10 12 = some ⟨arrC10, 0⟩ :=
  C10_no_alignment_check arrC10 12 (by decide) (by decide)


end Simd
